import Mathlib

/-!
Verification of the univariate polynomial core (`jolt-core/src/poly/unipoly.rs`).

A dense polynomial is a coefficient vector in ascending-degree order
(`ax^2+bx+c` is stored as `[c,b,a]`).  A compressed polynomial stores the
constant coefficient followed by the coefficients of degree at least two,
omitting the linear coefficient.

Rust `Vec<F>` is modelled as `List F`, the generic field bound `JoltField`
as `Field F` (with decidable equality, which the source relies on through
`==` on field elements).  Operations that can panic in Rust
(`unwrap`, out-of-bounds indexing) are modelled so that the panic is an
explicit, distinguishable outcome where a claim depends on it
(`divide_with_q_and_r`), and are guarded by the claims' hypotheses elsewhere.
-/

set_option maxHeartbeats 1000000
set_option linter.unusedSectionVars false

variable {F : Type} [Field F] [DecidableEq F]

/-- A list is the code's notion of a zero polynomial: empty, or all stored
coefficients equal to the zero field element (`UniPoly::is_zero`). -/
def zeroList (l : List F) : Prop := l = [] ∨ ∀ c ∈ l, c = 0

instance (l : List F) : Decidable (zeroList l) := by
  unfold zeroList; infer_instance

/-- Dense univariate polynomial: `coeffs[i]` is the coefficient of `x^i`. -/
structure UniPoly (F : Type) where
  coeffs : List F
deriving DecidableEq

/-- Compressed polynomial: constant coefficient followed by the coefficients
of degree at least 2; the linear coefficient is dropped. -/
structure CompressedUniPoly (F : Type) where
  coeffs_except_linear_term : List F
deriving DecidableEq

def UniPoly.from_coeff (coeffs : List F) : UniPoly F := ⟨coeffs⟩

def UniPoly.zero : UniPoly F := UniPoly.from_coeff []

def UniPoly.is_zero (p : UniPoly F) : Prop := zeroList p.coeffs

instance (p : UniPoly F) : Decidable p.is_zero := by
  unfold UniPoly.is_zero; infer_instance

/-- `UniPoly::degree`: stored length minus one.  The source computes this on
`usize`; every call site guards against the empty list, where the natural
subtraction below and the source differ. -/
def UniPoly.degree (p : UniPoly F) : Nat := p.coeffs.length - 1

/-- `UniPoly::leading_coefficient`: the last stored coefficient, if any. -/
def UniPoly.leading_coefficient (p : UniPoly F) : Option F := p.coeffs.getLast?

/-- The loop of `UniPoly::evaluate`: `eval += power * coeffs[i]; power *= r`. -/
def evalLoop (r : F) : F → F → List F → F
  | eval, _, [] => eval
  | eval, power, c :: cs => evalLoop r (eval + power * c) (power * r) cs

/-- `UniPoly::evaluate`.  The source reads `coeffs[0]` first, which panics on
an empty coefficient vector; the claims about `evaluate` all assume at least
one coefficient, so the empty case is mapped to `0` here. -/
def UniPoly.evaluate (p : UniPoly F) (r : F) : F :=
  match p.coeffs with
  | [] => 0
  | c :: cs => evalLoop r c r cs

/-- `UniPoly::compress`: `[&coeffs[..1], &coeffs[2..]].concat()`.  The source
slicing panics when there are fewer than 2 coefficients; the claims about
`compress` all assume at least 2 coefficients, where `take`/`drop` agree
with the slices. -/
def UniPoly.compress (p : UniPoly F) : CompressedUniPoly F :=
  ⟨p.coeffs.take 1 ++ p.coeffs.drop 2⟩

/-- `CompressedUniPoly::decompress`.  The source indexes
`coeffs_except_linear_term[0]`, which panics on an empty compressed
polynomial: that panic is modelled as `none`.  The linear term starts from
`hint - c0 - c0` and subtracts each remaining stored coefficient in order. -/
def CompressedUniPoly.decompress (cp : CompressedUniPoly F) (hint : F) :
    Option (UniPoly F) :=
  match cp.coeffs_except_linear_term with
  | [] => none
  | c0 :: rest =>
    let linear_term := rest.foldl (fun acc c => acc - c) (hint - c0 - c0)
    some ⟨c0 :: linear_term :: rest⟩

/-- `JoltField::inverse`: `none` exactly on the zero element. -/
def finv (x : F) : Option F := if x = 0 then none else some x⁻¹

/-- The trailing-zero stripping loop of the division:
`while remainder.coeffs.last() == Some(0) \x7b remainder.coeffs.pop() \x7d`. -/
def trim : List F → List F
  | [] => []
  | c :: cs =>
    match trim cs with
    | [] => if c = 0 then [] else [c]
    | r => c :: r

/-- Pointwise subtraction of a prefix-aligned list:
`subFrom l s` subtracts `s[i]` from `l[i]` for each `i < s.length`. -/
def subFrom : List F → List F → List F
  | l, [] => l
  | [], _ :: _ => []
  | c :: cs, s0 :: s' => (c - s0) :: subFrom cs s'

/-- The in-place update `remainder.coeffs[k + i] -= s[i]` for all
`i < s.length`, as a pure list operation.  The caller (`divLoop`) checks
`k + s.length ≤ l.length` first, mirroring the Rust indexing panic. -/
def subAt : List F → Nat → List F → List F
  | l, 0, s => subFrom l s
  | [], _ + 1, _ => []
  | c :: cs, k + 1, s => c :: subAt cs k s

/-- Outcome of the long-division loop.  `panicked` marks a Rust panic
(failed `unwrap` or out-of-bounds index); `outOfFuel` is an artifact of the
fuel-based encoding and is proved unreachable for the fuel the caller uses. -/
inductive LoopResult (F : Type) where
  | done : List F → List F → LoopResult F
  | panicked : LoopResult F
  | outOfFuel : LoopResult F
deriving DecidableEq

/-- The `while` loop of `UniPoly::divide_with_q_and_r`, carrying the
quotient and remainder coefficient vectors.  `dco` is the divisor's
coefficient vector and `dInv` the precomputed inverse of its leading
coefficient. -/
def divLoop (dco : List F) (dInv : F) : Nat → List F → List F → LoopResult F
  | 0, _, _ => .outOfFuel
  | fuel + 1, q, rem =>
    if zeroList rem ∨ rem.length - 1 < dco.length - 1 then
      .done q rem
    else
      match rem.getLast? with
      | none => .panicked
      | some rlc =>
        let cur_q_coeff := rlc * dInv
        let cur_q_degree := (rem.length - 1) - (dco.length - 1)
        if cur_q_degree < q.length then
          if cur_q_degree + dco.length ≤ rem.length then
            divLoop dco dInv fuel (q.set cur_q_degree cur_q_coeff)
              (trim (subAt rem cur_q_degree (dco.map fun c => cur_q_coeff * c)))
          else
            .panicked
        else
          .panicked

/-- Outcome of `UniPoly::divide_with_q_and_r`: a normal return
(`ok (some (quotient, remainder))` or the `None` sentinel `ok none`),
a Rust panic, or fuel exhaustion (an encoding artifact, proved unreachable). -/
inductive DivResult (F : Type) where
  | ok : Option (UniPoly F × UniPoly F) → DivResult F
  | panicked : DivResult F
  | outOfFuel : DivResult F
deriving DecidableEq

/-- `UniPoly::divide_with_q_and_r`. -/
def UniPoly.divide_with_q_and_r (p divisor : UniPoly F) : DivResult F :=
  if p.is_zero then .ok (some (UniPoly.zero, UniPoly.zero))
  else if divisor.is_zero then .ok none
  else if p.degree < divisor.degree then .ok (some (UniPoly.zero, p))
  else
    match divisor.coeffs.getLast? with
    | none => .panicked
    | some lc =>
      match finv lc with
      | none => .panicked
      | some lcInv =>
        match divLoop divisor.coeffs lcInv (p.coeffs.length + 1)
            (List.replicate (p.degree - divisor.degree + 1) 0) p.coeffs with
        | .done q rem => .ok (some (UniPoly.from_coeff q, UniPoly.from_coeff rem))
        | .panicked => .panicked
        | .outOfFuel => .outOfFuel

/-- The inner row loop of `UniPoly::vandermonde_interpolation`: starting from
the already-pushed value `last`, push `row[j-1] * x` a further `k` times. -/
def rowLoop (x : F) : F → Nat → List F
  | _, 0 => []
  | last, k + 1 => (last * x) :: rowLoop x (last * x) k

/-- One power row of `UniPoly::vandermonde_interpolation`: the source pushes
`1` and `x` unconditionally and then `row[j-1] * x` for `j` in `2..n`. -/
def buildRow (x : F) (n : Nat) : List F := 1 :: x :: rowLoop x x (n - 2)

/-- The augmented matrix built by `UniPoly::vandermonde_interpolation`:
row `i` is the power row of `x_i = i` (converted into the field via
`F::from_u64`) with `evals[i]` appended. -/
def vandermondeMatrix (evals : List F) : List (List F) :=
  (List.range evals.length).map fun i =>
    buildRow ((Nat.cast i : F)) evals.length ++ [evals.getD i 0]

/-- `UniPoly::from_evals` and `vandermonde_interpolation`: the source hands
the augmented matrix to the external `gaussian_elimination`, modelled here
as an explicit `solve` parameter. -/
def UniPoly.from_evals (solve : List (List F) → List F) (evals : List F) :
    UniPoly F :=
  ⟨solve (vandermondeMatrix evals)⟩

/-- Dot product of two coefficient lists (truncating to the shorter one). -/
def dot (a b : List F) : F := (List.zipWith (fun x y => x * y) a b).sum

/-- Modelled from the spec: the external linear-system solver
(`crate::utils::gaussian_elimination::gaussian_elimination`, not part of this
core) is "assumed to always terminate with a correct solution" for the
augmented systems this core constructs.  `xs` is a correct output for the
augmented matrix `M` when it has one fewer entry than each row and satisfies
every row's equation: the row without its last entry, dotted with `xs`,
equals the row's last entry. -/
def SolvesAugmented (M : List (List F)) (xs : List F) : Prop :=
  ∀ row ∈ M, xs.length + 1 = row.length ∧
    dot row.dropLast xs = (row.getLast?).getD 0

instance (M : List (List F)) (xs : List F) : Decidable (SolvesAugmented M xs) := by
  unfold SolvesAugmented; infer_instance

/-- An entry of the Fiat-Shamir transcript, as appended by
`ProofTranscript::append_message` / `append_scalar`. -/
inductive TranscriptOp (F : Type) where
  | message : String → String → TranscriptOp F
  | scalar : String → F → TranscriptOp F
deriving DecidableEq

/-- `<UniPoly as AppendToTranscript>::append_to_transcript`: the transcript
is modelled as the ordered list of appended entries; the source's `&mut`
update becomes a state-passing function of that list. -/
def UniPoly.append_to_transcript (p : UniPoly F) (label : String)
    (transcript : List (TranscriptOp F)) : List (TranscriptOp F) :=
  let t1 := transcript ++ [TranscriptOp.message label "UniPoly_begin"]
  let t2 := p.coeffs.foldl (fun acc c => acc ++ [TranscriptOp.scalar "coeff" c]) t1
  t2 ++ [TranscriptOp.message label "UniPoly_end"]

/-- Coefficient of `x^k` in a stored coefficient vector (0 beyond the end). -/
def coeffAt (p : UniPoly F) (k : Nat) : F := p.coeffs.getD k 0

/-- Coefficient of `x^k` in the product of two stored polynomials
(the Cauchy convolution of the coefficient vectors). -/
def mulCoeff (a b : UniPoly F) (k : Nat) : F :=
  (Finset.range (k + 1)).sum fun i => coeffAt a i * coeffAt b (k - i)

/-- Semantics of a coefficient vector as a polynomial over `F`. -/
noncomputable def ofL (l : List F) : Polynomial F :=
  l.foldr (fun c p => Polynomial.C c + Polynomial.X * p) 0

/-! ### Basic evaluation lemmas -/

lemma foldl_sub (l : List F) : ∀ a : F, l.foldl (fun acc c => acc - c) a = a - l.sum := by
  induction l with
  | nil => intro a; simp
  | cons c cs ih => intro a; simp only [List.foldl_cons, ih, List.sum_cons]; ring

lemma evalLoop_zero (l : List F) : ∀ a : F, evalLoop 0 a 0 l = a := by
  induction l with
  | nil => intro a; rfl
  | cons c cs ih => intro a; simp only [evalLoop, mul_zero, zero_mul, add_zero]; exact ih a

lemma evalLoop_one (l : List F) : ∀ a : F, evalLoop 1 a 1 l = a + l.sum := by
  induction l with
  | nil => intro a; simp [evalLoop]
  | cons c cs ih => intro a; simp only [evalLoop, one_mul, mul_one, List.sum_cons, ih]; ring

lemma evalLoop_eq (r : F) (l : List F) : ∀ a pw : F,
    evalLoop r a pw l
      = a + (Finset.range l.length).sum fun i => l.getD i 0 * (pw * r ^ i) := by
  induction l with
  | nil => intro a pw; simp [evalLoop]
  | cons c cs ih =>
    intro a pw
    simp only [evalLoop, List.length_cons]
    rw [ih, Finset.sum_range_succ']
    simp only [List.getD_cons_succ, List.getD_cons_zero, pow_zero, mul_one]
    rw [Finset.sum_congr rfl fun i _ => by
      show cs.getD i 0 * (pw * r * r ^ i) = cs.getD i 0 * (pw * r ^ (i + 1))
      ring]
    ring

lemma evaluate_eq_sum (p : UniPoly F) (h : p.coeffs ≠ []) (r : F) :
    p.evaluate r = (Finset.range p.coeffs.length).sum fun i => p.coeffs.getD i 0 * r ^ i := by
  obtain ⟨coeffs⟩ := p
  cases coeffs with
  | nil => exact absurd rfl h
  | cons c cs =>
    show evalLoop r c r cs
      = (Finset.range (cs.length + 1)).sum fun i => (c :: cs).getD i 0 * r ^ i
    rw [evalLoop_eq, Finset.sum_range_succ']
    simp only [List.getD_cons_succ, List.getD_cons_zero, pow_zero, mul_one]
    rw [Finset.sum_congr rfl fun i _ => by
      show cs.getD i 0 * (r * r ^ i) = cs.getD i 0 * r ^ (i + 1)
      ring]
    ring

lemma evaluate_at_zero (p : UniPoly F) (c : F) (cs : List F) (hc : p.coeffs = c :: cs) :
    p.evaluate 0 = c := by
  obtain ⟨coeffs⟩ := p
  cases hc
  show evalLoop 0 c 0 cs = c
  exact evalLoop_zero cs c

lemma evaluate_at_one (p : UniPoly F) (c : F) (cs : List F) (hc : p.coeffs = c :: cs) :
    p.evaluate 1 = c + cs.sum := by
  obtain ⟨coeffs⟩ := p
  cases hc
  show evalLoop 1 c 1 cs = c + cs.sum
  exact evalLoop_one cs c

/-! ### C1: compress / decompress round trip -/

/-- C1: for every dense polynomial with at least 2 coefficients, compressing
and then decompressing with `hint = P.evaluate(0) + P.evaluate(1)` yields a
polynomial equal to the original, coefficient by coefficient. -/
theorem compress_decompress_roundtrip (p : UniPoly F) (h2 : 2 ≤ p.coeffs.length) :
    p.compress.decompress (p.evaluate 0 + p.evaluate 1) = some p := by
  obtain ⟨coeffs⟩ := p
  match coeffs, h2 with
  | c0 :: c1 :: rest, _ =>
    have h0 : UniPoly.evaluate ⟨c0 :: c1 :: rest⟩ 0 = c0 := evaluate_at_zero _ _ _ rfl
    have h1 : UniPoly.evaluate ⟨c0 :: c1 :: rest⟩ 1 = c0 + (c1 :: rest).sum :=
      evaluate_at_one _ _ _ rfl
    rw [h0, h1]
    show CompressedUniPoly.decompress ⟨c0 :: rest⟩ _ = _
    simp only [CompressedUniPoly.decompress, foldl_sub, List.sum_cons]
    congr 2
    ring

instance : Fact (Nat.Prime 101) := ⟨by norm_num⟩

theorem compress_decompress_roundtrip_witness :
    2 ≤ (UniPoly.coeffs (⟨[1, 3, 2]⟩ : UniPoly (ZMod 101))).length ∧
      (UniPoly.compress (⟨[1, 3, 2]⟩ : UniPoly (ZMod 101))).decompress
        (UniPoly.evaluate ⟨[1, 3, 2]⟩ 0 + UniPoly.evaluate ⟨[1, 3, 2]⟩ 1)
        = some ⟨[1, 3, 2]⟩ :=
  ⟨by decide, compress_decompress_roundtrip ⟨[1, 3, 2]⟩ (by decide)⟩

/-! ### C6: decompression characterization -/

/-- C6: for a non-empty compressed polynomial and any hint `h`, `decompress`
succeeds and returns the dense polynomial whose constant term and
degree-at-least-2 coefficients are the stored coefficients unchanged and
whose linear term is `h - 2 * constant - (sum of the other stored
coefficients)`; distinct hints therefore differ exactly in the linear term. -/
theorem decompress_characterization (cp : CompressedUniPoly F) (c0 : F) (rest : List F)
    (hc : cp.coeffs_except_linear_term = c0 :: rest) :
    (∀ h : F, cp.decompress h = some ⟨c0 :: (h - 2 * c0 - rest.sum) :: rest⟩) ∧
      ∀ h h' : F, h ≠ h' → h - 2 * c0 - rest.sum ≠ h' - 2 * c0 - rest.sum := by
  constructor
  · intro h
    obtain ⟨celt⟩ := cp
    cases hc
    simp only [CompressedUniPoly.decompress, foldl_sub]
    congr 3
    ring
  · intro h h' hne heq
    exact hne (by
      have h1 := sub_left_inj.mp heq
      exact sub_left_inj.mp h1)

theorem decompress_characterization_witness :
    (∀ h : ZMod 101, CompressedUniPoly.decompress ⟨[1, 2]⟩ h
        = some ⟨1 :: (h - 2 * 1 - List.sum [2]) :: [2]⟩) ∧
      ∀ h h' : ZMod 101, h ≠ h' →
        h - 2 * 1 - List.sum [2] ≠ h' - 2 * 1 - List.sum [2] :=
  decompress_characterization ⟨[1, 2]⟩ 1 [2] rfl

/-! ### C7: evaluation formula -/

/-- C7: for every dense polynomial with at least one coefficient and every
field element `r`, `evaluate(r)` returns the sum over `i` of
`coeffs[i] * r^i`. -/
theorem evaluate_is_poly_sum (p : UniPoly F) (h : p.coeffs ≠ []) (r : F) :
    p.evaluate r
      = (Finset.range p.coeffs.length).sum fun i => p.coeffs.getD i 0 * r ^ i :=
  evaluate_eq_sum p h r

theorem evaluate_is_poly_sum_witness :
    (UniPoly.coeffs (⟨[1, 3, 2]⟩ : UniPoly (ZMod 101))) ≠ [] ∧
      UniPoly.evaluate (⟨[1, 3, 2]⟩ : UniPoly (ZMod 101)) 3
        = (Finset.range (UniPoly.coeffs (⟨[1, 3, 2]⟩ : UniPoly (ZMod 101))).length).sum
            fun i => (UniPoly.coeffs (⟨[1, 3, 2]⟩ : UniPoly (ZMod 101))).getD i 0 * 3 ^ i :=
  ⟨by decide, evaluate_is_poly_sum ⟨[1, 3, 2]⟩ (by decide) 3⟩

/-! ### C8: transcript appending -/

lemma foldl_append_map {α β : Type} (f : α → β) (l : List α) : ∀ init : List β,
    l.foldl (fun acc c => acc ++ [f c]) init = init ++ l.map f := by
  induction l with
  | nil => intro init; simp
  | cons c cs ih => intro init; simp only [List.foldl_cons, List.map_cons, ih,
      List.append_assoc, List.singleton_append]

/-- C8: appending a dense polynomial to the transcript emits exactly, in
order, one begin-marker message, one scalar per coefficient in ascending
degree order, and one end-marker message; the operation is a pure function
of the transcript state and does not touch the polynomial. -/
theorem append_to_transcript_events (p : UniPoly F) (label : String)
    (t : List (TranscriptOp F)) :
    p.append_to_transcript label t
      = t ++ TranscriptOp.message label "UniPoly_begin"
          :: (p.coeffs.map (TranscriptOp.scalar "coeff")
            ++ [TranscriptOp.message label "UniPoly_end"]) := by
  simp only [UniPoly.append_to_transcript, foldl_append_map, List.append_assoc,
    List.singleton_append, List.cons_append, List.nil_append]

/-! ### C4 (corrected): division by the zero polynomial -/

/-- C4 fails as stated: with a zero dividend, the zero-dividend branch runs
first, so dividing the zero polynomial by the zero polynomial returns
`Some((zero, zero))`, not the `None` sentinel. -/
theorem divide_zero_by_zero_counterexample :
    UniPoly.divide_with_q_and_r (⟨[]⟩ : UniPoly (ZMod 101)) ⟨[]⟩
        = .ok (some (UniPoly.zero, UniPoly.zero)) ∧
      DivResult.ok (some ((UniPoly.zero : UniPoly (ZMod 101)), UniPoly.zero))
        ≠ .ok none := by
  exact ⟨by decide, by decide⟩

/-- C4 (amended): for every dividend that is not the zero polynomial,
dividing by the zero polynomial returns the `None` sentinel and does not
panic. -/
theorem divide_by_zero_divisor (p d : UniPoly F) (hp : ¬ p.is_zero) (hd : d.is_zero) :
    p.divide_with_q_and_r d = .ok none := by
  unfold UniPoly.divide_with_q_and_r
  rw [if_neg hp, if_pos hd]

theorem divide_by_zero_divisor_witness :
    ¬ (UniPoly.is_zero (⟨[1]⟩ : UniPoly (ZMod 101))) ∧
      UniPoly.divide_with_q_and_r (⟨[1]⟩ : UniPoly (ZMod 101)) ⟨[]⟩ = .ok none :=
  ⟨by decide, divide_by_zero_divisor ⟨[1]⟩ ⟨[]⟩ (by decide) (by decide)⟩

/-! ### C9: all-zero dividends -/

/-- C9: `is_zero` holds for every all-zero coefficient vector, not only the
empty one, so `divide_with_q_and_r` with an all-zero dividend returns
`Some((zero, zero))` for every divisor, the zero divisor included. -/
theorem zero_dividend_divide (l : List F) (hl : ∀ c ∈ l, c = 0) (d : UniPoly F) :
    UniPoly.is_zero (⟨l⟩ : UniPoly F) ∧
      UniPoly.divide_with_q_and_r ⟨l⟩ d = .ok (some (UniPoly.zero, UniPoly.zero)) := by
  have hz : UniPoly.is_zero (⟨l⟩ : UniPoly F) := Or.inr hl
  refine ⟨hz, ?_⟩
  unfold UniPoly.divide_with_q_and_r
  rw [if_pos hz]

theorem zero_dividend_divide_witness :
    (∀ c ∈ ([0, 0] : List (ZMod 101)), c = 0) ∧
      (UniPoly.is_zero (⟨[0, 0]⟩ : UniPoly (ZMod 101)) ∧
        UniPoly.divide_with_q_and_r (⟨[0, 0]⟩ : UniPoly (ZMod 101)) ⟨[]⟩
          = .ok (some (UniPoly.zero, UniPoly.zero))) :=
  ⟨by decide, zero_dividend_divide [0, 0] (by decide) ⟨[]⟩⟩

/-! ### Vandermonde rows -/

lemma rowLoop_eq (x : F) : ∀ (k : Nat) (last : F),
    rowLoop x last k = (List.range k).map fun j => last * x ^ (j + 1) := by
  intro k
  induction k with
  | zero => intro last; rfl
  | succ k ih =>
    intro last
    rw [List.range_succ_eq_map]
    simp only [rowLoop, ih, List.map_cons, List.map_map, zero_add, pow_one]
    refine congrArg₂ _ rfl ?_
    refine congrArg₂ _ ?_ rfl
    funext j
    show last * x * x ^ (j + 1) = last * x ^ (j + 1 + 1)
    ring

lemma buildRow_eq (x : F) (n : Nat) :
    buildRow x n = (List.range ((n - 2) + 2)).map fun j => x ^ j := by
  unfold buildRow
  rw [rowLoop_eq, List.range_succ_eq_map, List.range_succ_eq_map]
  simp only [List.map_cons, List.map_map, pow_zero, pow_one]
  refine congrArg₂ _ rfl (congrArg₂ _ rfl ?_)
  refine congrArg₂ _ ?_ rfl
  funext j
  show x * x ^ (j + 1) = x ^ (j + 1 + 1)
  ring

lemma vandermondeMatrix_get (evals : List F) (i : Nat) (hi : i < evals.length) :
    (vandermondeMatrix evals).get? i
      = some (buildRow (Nat.cast i) evals.length ++ [evals.getD i 0]) := by
  unfold vandermondeMatrix
  rw [List.get?_map, List.get?_range hi]
  rfl

/-! ### C5 (corrected): shape of the Vandermonde augmented matrix -/

/-- C5 fails as stated for `n = 1`: the source pushes `1` and `x`
unconditionally, so the single row for evaluations `[5]` is `[1, 0, 5]`
(a 1-by-3 matrix), not the claimed `[x_0^0, evals[0]] = [1, 5]`. -/
theorem vandermonde_n1_counterexample :
    vandermondeMatrix ([5] : List (ZMod 101)) = [[1, 0, 5]] ∧
      vandermondeMatrix ([5] : List (ZMod 101)) ≠ [[1, 5]] :=
  ⟨by decide, by decide⟩

/-- C5 (amended): for every evaluation sequence of length `n ≥ 2`,
`vandermonde_interpolation` builds an augmented matrix with `n` rows whose
row `i` is `[x_i^0, x_i^1, ..., x_i^(n-1), evals[i]]` with `x_i = i`
converted into the field; for `n = 1` the single row is `[1, x_0, evals[0]]`
instead. -/
theorem vandermonde_matrix_rows (evals : List F) (h2 : 2 ≤ evals.length) :
    (vandermondeMatrix evals).length = evals.length ∧
      ∀ i, i < evals.length →
        (vandermondeMatrix evals).get? i
          = some (((List.range evals.length).map fun j => (Nat.cast i : F) ^ j)
              ++ [evals.getD i 0]) := by
  constructor
  · simp [vandermondeMatrix]
  · intro i hi
    rw [vandermondeMatrix_get evals i hi, buildRow_eq]
    have hm : evals.length - 2 + 2 = evals.length := by omega
    rw [hm]

theorem vandermonde_matrix_rows_witness :
    2 ≤ ([1, 6, 15] : List (ZMod 101)).length ∧
      ((vandermondeMatrix ([1, 6, 15] : List (ZMod 101))).length = 3 ∧
        ∀ i, i < ([1, 6, 15] : List (ZMod 101)).length →
          (vandermondeMatrix ([1, 6, 15] : List (ZMod 101))).get? i
            = some (((List.range ([1, 6, 15] : List (ZMod 101)).length).map
                  fun j => (Nat.cast i : ZMod 101) ^ j)
                ++ [([1, 6, 15] : List (ZMod 101)).getD i 0])) :=
  ⟨by decide, vandermonde_matrix_rows [1, 6, 15] (by decide)⟩

/-! ### C3: interpolation evaluates back to the inputs -/

lemma dot_pow (x : F) : ∀ (cs : List F) (k m : Nat), cs.length ≤ m →
    dot ((List.range m).map fun j => x ^ (k + j)) cs
      = (Finset.range cs.length).sum fun i => cs.getD i 0 * x ^ (k + i) := by
  intro cs
  induction cs with
  | nil => intro k m _; simp [dot]
  | cons c cs' ih =>
    intro k m hm
    match m, hm with
    | m' + 1, hm =>
      rw [List.range_succ_eq_map]
      simp only [List.map_cons, List.map_map]
      show (List.zipWith (fun a b => a * b)
          (x ^ (k + 0) :: (List.range m').map fun j => x ^ (k + (j + 1))) (c :: cs')).sum = _
      simp only [List.zipWith_cons_cons, List.sum_cons]
      have hf : ((fun j => x ^ (k + (j + 1))) : Nat → F)
          = fun j => x ^ ((k + 1) + j) := by
        funext j
        congr 1
        omega
      rw [hf]
      have htail := ih (k + 1) m' (Nat.le_of_succ_le_succ hm)
      unfold dot at htail
      rw [htail, List.length_cons, Finset.sum_range_succ']
      simp only [List.getD_cons_succ, List.getD_cons_zero, Nat.add_zero]
      rw [Finset.sum_congr rfl fun i _ => by
        show cs'.getD i 0 * x ^ (k + 1 + i) = cs'.getD i 0 * x ^ (k + (i + 1))
        congr 2
        omega]
      ring

/-- C3: for every `n ≥ 1` and evaluation list of length `n`, under the
spec-modelled assumption that the external solver returns a solution of the
augmented Vandermonde system, the polynomial produced by `from_evals`
evaluates at each point `i` (converted into the field) to `evals[i]`. -/
theorem from_evals_evaluates (solve : List (List F) → List F) (evals : List F)
    (h1 : 1 ≤ evals.length)
    (hs : SolvesAugmented (vandermondeMatrix evals) (solve (vandermondeMatrix evals)))
    (i : Nat) (hi : i < evals.length) :
    (UniPoly.from_evals solve evals).evaluate (Nat.cast i) = evals.getD i 0 := by
  set xs := solve (vandermondeMatrix evals) with hxs
  set n := evals.length with hn
  have hrow := vandermondeMatrix_get evals i hi
  have hmem : buildRow (Nat.cast i : F) n ++ [evals.getD i 0] ∈ vandermondeMatrix evals :=
    List.get?_mem hrow
  obtain ⟨hlen, hdot⟩ := hs _ hmem
  have hrowlen : (buildRow (Nat.cast i : F) n ++ [evals.getD i 0]).length
      = (n - 2 + 2) + 1 := by
    rw [buildRow_eq]
    simp
  have hxlen : xs.length = n - 2 + 2 := by
    rw [hrowlen] at hlen
    omega
  have hne : xs ≠ [] := by
    have hpos : 0 < xs.length := by omega
    exact List.length_pos.mp hpos
  have hdrop : (buildRow (Nat.cast i : F) n ++ [evals.getD i 0]).dropLast
      = buildRow (Nat.cast i : F) n := by
    simp
  have hlast : ((buildRow (Nat.cast i : F) n ++ [evals.getD i 0]).getLast?).getD 0
      = evals.getD i 0 := by
    simp
  rw [hdrop, hlast] at hdot
  rw [buildRow_eq] at hdot
  have hpow : ((List.range (n - 2 + 2)).map fun j => (Nat.cast i : F) ^ j)
      = (List.range (n - 2 + 2)).map fun j => (Nat.cast i : F) ^ (0 + j) := by
    refine congrArg₂ _ ?_ rfl
    funext j
    rw [Nat.zero_add]
  rw [hpow, dot_pow (Nat.cast i : F) xs 0 (n - 2 + 2) (le_of_eq hxlen)] at hdot
  have heval := evaluate_eq_sum ⟨xs⟩ hne (Nat.cast i)
  show UniPoly.evaluate ⟨xs⟩ (Nat.cast i) = evals.getD i 0
  rw [heval]
  rw [← hdot]
  exact Finset.sum_congr rfl fun t _ => by rw [Nat.zero_add]

theorem from_evals_evaluates_witness :
    1 ≤ ([1, 6, 15] : List (ZMod 101)).length ∧
      SolvesAugmented (vandermondeMatrix ([1, 6, 15] : List (ZMod 101)))
        ((fun _ => [1, 3, 2]) (vandermondeMatrix ([1, 6, 15] : List (ZMod 101)))) ∧
      (UniPoly.from_evals (fun _ => [1, 3, 2]) ([1, 6, 15] : List (ZMod 101))).evaluate
          (Nat.cast 2) = ([1, 6, 15] : List (ZMod 101)).getD 2 0 :=
  ⟨by decide, by decide,
    from_evals_evaluates (fun _ => [1, 3, 2]) [1, 6, 15] (by decide) (by decide) 2 (by decide)⟩

/-! ### List semantics lemmas for the division proof -/

lemma ofL_nil : ofL ([] : List F) = 0 := rfl

lemma ofL_cons (c : F) (cs : List F) :
    ofL (c :: cs) = Polynomial.C c + Polynomial.X * ofL cs := rfl

lemma ofL_coeff : ∀ (l : List F) (n : Nat), (ofL l).coeff n = l.getD n 0 := by
  intro l
  induction l with
  | nil => intro n; simp [ofL]
  | cons c cs ih =>
    intro n
    cases n with
    | zero =>
      rw [ofL_cons, Polynomial.coeff_add, Polynomial.coeff_C_zero,
        Polynomial.mul_coeff_zero, Polynomial.coeff_X_zero, zero_mul, add_zero,
        List.getD_cons_zero]
    | succ n =>
      rw [ofL_cons, Polynomial.coeff_add, Polynomial.coeff_C,
        Polynomial.coeff_X_mul, ih, List.getD_cons_succ]
      simp

lemma zeroList_getD : ∀ l : List F, zeroList l → ∀ k, l.getD k 0 = 0 := by
  intro l
  induction l with
  | nil => intro _ k; cases k <;> rfl
  | cons c cs ih =>
    intro hl k
    have hall : ∀ x ∈ c :: cs, x = 0 := hl.resolve_left (by simp)
    cases k with
    | zero => exact hall c (List.mem_cons_self c cs)
    | succ k =>
      rw [List.getD_cons_succ]
      exact ih (Or.inr fun x hx => hall x (List.mem_cons_of_mem c hx)) k

lemma ofL_zeroList (l : List F) (hl : zeroList l) : ofL l = 0 := by
  ext n
  rw [ofL_coeff, zeroList_getD l hl n, Polynomial.coeff_zero]

lemma ofL_append_replicate (k : Nat) : ∀ l : List F, ofL (l ++ List.replicate k 0) = ofL l := by
  intro l
  induction l with
  | nil =>
    rw [List.nil_append, ofL_nil,
      ofL_zeroList _ (Or.inr fun c hc => (List.eq_of_mem_replicate hc))]
  | cons c cs ih => rw [List.cons_append, ofL_cons, ofL_cons, ih]

lemma trim_spec : ∀ l : List F, ∃ k, l = trim l ++ List.replicate k 0 := by
  intro l
  induction l with
  | nil => exact ⟨0, rfl⟩
  | cons c cs ih =>
    obtain ⟨k, hk⟩ := ih
    cases htc : trim cs with
    | nil =>
      rw [htc, List.nil_append] at hk
      by_cases hc : c = 0
      · refine ⟨k + 1, ?_⟩
        show c :: cs = (match trim cs with
          | [] => if c = 0 then [] else [c]
          | r => c :: r) ++ List.replicate (k + 1) 0
        rw [htc]
        simp only [if_pos hc, List.nil_append, List.replicate_succ]
        rw [hc, hk]
      · refine ⟨k, ?_⟩
        show c :: cs = (match trim cs with
          | [] => if c = 0 then [] else [c]
          | r => c :: r) ++ List.replicate k 0
        rw [htc]
        simp only [if_neg hc, List.singleton_append]
        rw [← hk]
    | cons r rs =>
      refine ⟨k, ?_⟩
      show c :: cs = (match trim cs with
        | [] => if c = 0 then [] else [c]
        | r => c :: r) ++ List.replicate k 0
      rw [htc]
      show c :: cs = c :: ((r :: rs) ++ List.replicate k 0)
      rw [← htc, ← hk]

lemma ofL_trim (l : List F) : ofL (trim l) = ofL l := by
  obtain ⟨k, hk⟩ := trim_spec l
  conv_rhs => rw [hk]
  rw [ofL_append_replicate]

lemma trim_getLast_ne : ∀ l : List F, ∀ x : F, (trim l).getLast? = some x → x ≠ 0 := by
  intro l
  induction l with
  | nil => intro x hx; cases hx
  | cons c cs ih =>
    intro x hx
    revert hx
    show (match trim cs with
      | [] => if c = 0 then [] else [c]
      | r => c :: r).getLast? = some x → x ≠ 0
    cases htc : trim cs with
    | nil =>
      by_cases hc : c = 0
      · rw [if_pos hc]
        intro hx; cases hx
      · rw [if_neg hc]
        intro hx
        rw [List.getLast?_singleton] at hx
        cases hx
        exact hc
    | cons r rs =>
      intro hx
      rw [List.getLast?_cons_cons] at hx
      exact ih x (htc ▸ hx)

lemma getLast_eq_getD : ∀ l : List F, l ≠ [] → l.getLast? = some (l.getD (l.length - 1) 0) := by
  intro l
  induction l with
  | nil => intro h; exact absurd rfl h
  | cons c cs ih =>
    intro _
    cases cs with
    | nil => rfl
    | cons c2 cs' =>
      rw [List.getLast?_cons_cons, ih (by simp)]
      rfl

lemma getLast_some_ne_nil {l : List F} {a : F} (h : l.getLast? = some a) : l ≠ [] := by
  intro hl
  rw [hl] at h
  cases h

lemma trim_length_lt (l : List F) (hne : l ≠ []) (h0 : l.getD (l.length - 1) 0 = 0) :
    (trim l).length < l.length := by
  obtain ⟨k, hk⟩ := trim_spec l
  rcases Nat.eq_zero_or_pos k with rfl | hkpos
  · rw [List.replicate_zero, List.append_nil] at hk
    have hlast : l.getLast? = some 0 := by rw [getLast_eq_getD l hne, h0]
    rw [hk] at hlast
    exact absurd rfl (trim_getLast_ne l 0 hlast)
  · have hlen : l.length = (trim l).length + k := by
      conv_lhs => rw [hk]
      rw [List.length_append, List.length_replicate]
    omega

lemma subFrom_length : ∀ l s : List F, (subFrom l s).length = l.length := by
  intro l
  induction l with
  | nil => intro s; cases s <;> rfl
  | cons c cs ih =>
    intro s
    cases s with
    | nil => rfl
    | cons s0 s' => simp only [subFrom, List.length_cons, ih]

lemma subAt_zero : ∀ l s : List F, subAt l 0 s = subFrom l s := by
  intro l s
  cases l <;> cases s <;> rfl

lemma subAt_length : ∀ (k : Nat) (l s : List F), (subAt l k s).length = l.length := by
  intro k
  induction k with
  | zero => intro l s; rw [subAt_zero]; exact subFrom_length l s
  | succ k ih =>
    intro l s
    cases l with
    | nil => rfl
    | cons c cs => simp only [subAt, List.length_cons, ih]

lemma subFrom_getD : ∀ (l s : List F) (n : Nat), n < l.length →
    (subFrom l s).getD n 0 = l.getD n 0 - s.getD n 0 := by
  intro l
  induction l with
  | nil => intro s n hn; cases hn
  | cons c cs ih =>
    intro s n hn
    cases s with
    | nil =>
      show (c :: cs).getD n 0 = (c :: cs).getD n 0 - ([] : List F).getD n 0
      cases n <;> simp [subFrom]
    | cons s0 s' =>
      cases n with
      | zero => simp [subFrom]
      | succ n =>
        simp only [subFrom, List.getD_cons_succ]
        exact ih s' n (by simpa using hn)

lemma subAt_getD : ∀ (k : Nat) (l s : List F) (n : Nat), k ≤ n → n < l.length →
    (subAt l k s).getD n 0 = l.getD n 0 - s.getD (n - k) 0 := by
  intro k
  induction k with
  | zero =>
    intro l s n _ hn
    rw [Nat.sub_zero, subAt_zero]
    exact subFrom_getD l s n hn
  | succ k ih =>
    intro l s n hkn hn
    cases l with
    | nil => cases hn
    | cons c cs =>
      cases n with
      | zero => omega
      | succ n =>
        simp only [subAt, List.getD_cons_succ, Nat.succ_sub_succ]
        exact ih cs s n (by omega) (by simpa using hn)

lemma getD_map_mul (a : F) : ∀ (l : List F) (n : Nat), n < l.length →
    (l.map fun c => a * c).getD n 0 = a * l.getD n 0 := by
  intro l
  induction l with
  | nil => intro n hn; cases hn
  | cons c cs ih =>
    intro n hn
    cases n with
    | zero => rfl
    | succ n =>
      simp only [List.map_cons, List.getD_cons_succ]
      exact ih n (by simpa using hn)

lemma getD_set_ne : ∀ (l : List F) (i j : Nat) (v : F), j ≠ i →
    (l.set i v).getD j 0 = l.getD j 0 := by
  intro l
  induction l with
  | nil => intro i j v _; rfl
  | cons c cs ih =>
    intro i j v hji
    cases i with
    | zero =>
      cases j with
      | zero => exact absurd rfl hji
      | succ j => rfl
    | succ i =>
      cases j with
      | zero => rfl
      | succ j =>
        simp only [List.set_cons_succ, List.getD_cons_succ]
        exact ih i j v (by omega)

lemma getD_replicate_zero : ∀ (n k : Nat), (List.replicate n (0 : F)).getD k 0 = 0 := by
  intro n
  induction n with
  | zero => intro k; cases k <;> rfl
  | succ n ih =>
    intro k
    cases k with
    | zero => rfl
    | succ k => exact ih k

lemma ofL_subFrom : ∀ (s l : List F), s.length ≤ l.length →
    ofL (subFrom l s) = ofL l - ofL s := by
  intro s
  induction s with
  | nil => intro l _; rw [ofL_nil, sub_zero]; cases l <;> rfl
  | cons s0 s' ih =>
    intro l hs
    cases l with
    | nil => cases hs
    | cons c cs =>
      show ofL ((c - s0) :: subFrom cs s') = _
      rw [ofL_cons, ofL_cons, ofL_cons, ih cs (by simpa using hs), map_sub]
      ring

lemma ofL_subAt : ∀ (k : Nat) (l s : List F), k + s.length ≤ l.length →
    ofL (subAt l k s) = ofL l - Polynomial.X ^ k * ofL s := by
  intro k
  induction k with
  | zero =>
    intro l s h
    rw [pow_zero, one_mul, subAt_zero]
    exact ofL_subFrom s l (by simpa using h)
  | succ k ih =>
    intro l s h
    cases l with
    | nil =>
      rw [List.length_nil, Nat.le_zero] at h
      omega
    | cons c cs =>
      show ofL (c :: subAt cs k s) = _
      have hcs : k + s.length ≤ cs.length := by
        rw [List.length_cons] at h
        omega
      rw [ofL_cons, ofL_cons, ih cs s hcs, pow_succ]
      ring

lemma ofL_set : ∀ (l : List F) (i : Nat) (v : F), i < l.length →
    ofL (l.set i v) = ofL l + Polynomial.C (v - l.getD i 0) * Polynomial.X ^ i := by
  intro l
  induction l with
  | nil => intro i v hi; cases hi
  | cons c cs ih =>
    intro i v hi
    cases i with
    | zero =>
      show ofL (v :: cs) = _
      rw [ofL_cons, ofL_cons, List.getD_cons_zero, map_sub, pow_zero]
      ring
    | succ i =>
      show ofL (c :: cs.set i v) = _
      rw [ofL_cons, ofL_cons, ih i v (by simpa using hi), List.getD_cons_succ, pow_succ]
      ring

lemma ofL_map_mul (a : F) : ∀ l : List F, ofL (l.map fun c => a * c) = Polynomial.C a * ofL l := by
  intro l
  induction l with
  | nil => simp [ofL_nil]
  | cons c cs ih =>
    rw [List.map_cons, ofL_cons, ofL_cons, ih, map_mul]
    ring

/-! ### Long-division loop: step lemmas -/

lemma step_length_lt (dco rem : List F) (lc rlc : F)
    (hdl : dco.getLast? = some lc) (hlc : lc ≠ 0)
    (hrl : rem.getLast? = some rlc)
    (hle : dco.length ≤ rem.length) :
    (trim (subAt rem ((rem.length - 1) - (dco.length - 1))
        (dco.map fun c => rlc * lc⁻¹ * c))).length < rem.length := by
  have hdne : dco ≠ [] := getLast_some_ne_nil hdl
  have hrne : rem ≠ [] := getLast_some_ne_nil hrl
  have hd1 : 1 ≤ dco.length := List.length_pos.mpr hdne
  have hr1 : 1 ≤ rem.length := List.length_pos.mpr hrne
  have hlv : rlc = rem.getD (rem.length - 1) 0 := by
    have h2 := getLast_eq_getD rem hrne
    rw [hrl] at h2
    exact Option.some.inj h2
  have hlcv : lc = dco.getD (dco.length - 1) 0 := by
    have h2 := getLast_eq_getD dco hdne
    rw [hdl] at h2
    exact Option.some.inj h2
  have hlen' : (subAt rem ((rem.length - 1) - (dco.length - 1))
      (dco.map fun c => rlc * lc⁻¹ * c)).length = rem.length :=
    subAt_length _ rem _
  have hlast0 : (subAt rem ((rem.length - 1) - (dco.length - 1))
      (dco.map fun c => rlc * lc⁻¹ * c)).getD
        ((subAt rem ((rem.length - 1) - (dco.length - 1))
          (dco.map fun c => rlc * lc⁻¹ * c)).length - 1) 0 = 0 := by
    rw [hlen']
    rw [subAt_getD _ rem _ (rem.length - 1) (by omega) (by omega)]
    have hidx : (rem.length - 1) - ((rem.length - 1) - (dco.length - 1))
        = dco.length - 1 := by omega
    rw [hidx, getD_map_mul _ dco (dco.length - 1) (by omega), ← hlcv, ← hlv]
    rw [mul_assoc, inv_mul_cancel₀ hlc, mul_one, sub_self]
  have hne' : subAt rem ((rem.length - 1) - (dco.length - 1))
      (dco.map fun c => rlc * lc⁻¹ * c) ≠ [] := by
    intro hempty
    rw [hempty] at hlen'
    simp at hlen'
    omega
  have := trim_length_lt _ hne' hlast0
  omega

lemma step_ofL (dco rem q : List F) (cq : F) (cdeg : Nat)
    (hq : cdeg < q.length) (hq0 : q.getD cdeg 0 = 0)
    (hbound : cdeg + dco.length ≤ rem.length) :
    ofL (q.set cdeg cq) * ofL dco
        + ofL (trim (subAt rem cdeg (dco.map fun c => cq * c)))
      = ofL q * ofL dco + ofL rem := by
  rw [ofL_trim, ofL_subAt cdeg rem _ (by rw [List.length_map]; exact hbound)]
  rw [ofL_map_mul, ofL_set q cdeg cq hq, hq0, sub_zero]
  ring

/-! ### Long-division loop: invariant and totality -/

lemma divLoop_invariant (dco : List F) (lc : F)
    (hdl : dco.getLast? = some lc) (hlc : lc ≠ 0) :
    ∀ (fuel : Nat) (q rem q' r' : List F),
      divLoop dco lc⁻¹ fuel q rem = .done q' r' →
      (dco.length ≤ rem.length → ∀ j, j ≤ rem.length - dco.length → q.getD j 0 = 0) →
      ofL q' * ofL dco + ofL r' = ofL q * ofL dco + ofL rem
        ∧ (zeroList r' ∨ r'.length - 1 < dco.length - 1) := by
  intro fuel
  induction fuel with
  | zero =>
    intro q rem q' r' h _
    rw [divLoop] at h
    exact LoopResult.noConfusion h
  | succ fuel ih =>
    intro q rem q' r' h hq0
    rw [divLoop] at h
    by_cases hcond : zeroList rem ∨ rem.length - 1 < dco.length - 1
    · rw [if_pos hcond] at h
      injection h with h1 h2
      subst h1
      subst h2
      exact ⟨rfl, hcond⟩
    · rw [if_neg hcond] at h
      push_neg at hcond
      obtain ⟨hnz, hdeg⟩ := hcond
      have hrne : rem ≠ [] := fun hr => hnz (Or.inl hr)
      have hdne : dco ≠ [] := getLast_some_ne_nil hdl
      have hd1 : 1 ≤ dco.length := List.length_pos.mpr hdne
      have hr1 : 1 ≤ rem.length := List.length_pos.mpr hrne
      have hle : dco.length ≤ rem.length := by omega
      obtain ⟨rlc, hrl⟩ : ∃ a, rem.getLast? = some a :=
        ⟨_, getLast_eq_getD rem hrne⟩
      rw [hrl] at h
      simp only at h
      by_cases hq : (rem.length - 1) - (dco.length - 1) < q.length
      · rw [if_pos hq] at h
        have hb : (rem.length - 1) - (dco.length - 1) + dco.length ≤ rem.length := by
          omega
        rw [if_pos hb] at h
        have hlt := step_length_lt dco rem lc rlc hdl hlc hrl hle
        have hcq0 : q.getD ((rem.length - 1) - (dco.length - 1)) 0 = 0 :=
          hq0 hle _ (by omega)
        have hnew := ih _ _ _ _ h ?newhq0
        case newhq0 =>
          intro hle' j hj
          rw [getD_set_ne q _ j _ (by omega)]
          exact hq0 hle j (by omega)
        constructor
        · rw [hnew.1, step_ofL dco rem q (rlc * lc⁻¹) _ hq hcq0 (by omega)]
        · exact hnew.2
      · rw [if_neg hq] at h
        exact LoopResult.noConfusion h

lemma divLoop_total (dco : List F) (lc : F)
    (hdl : dco.getLast? = some lc) (hlc : lc ≠ 0) :
    ∀ (fuel : Nat) (q rem : List F), rem.length < fuel →
      rem.length ≤ q.length + dco.length - 1 →
      ∃ q' r', divLoop dco lc⁻¹ fuel q rem = .done q' r' := by
  intro fuel
  induction fuel with
  | zero => intro q rem hf _; omega
  | succ fuel ih =>
    intro q rem hf hql
    rw [divLoop]
    by_cases hcond : zeroList rem ∨ rem.length - 1 < dco.length - 1
    · exact ⟨q, rem, by rw [if_pos hcond]⟩
    · rw [if_neg hcond]
      push_neg at hcond
      obtain ⟨hnz, hdeg⟩ := hcond
      have hrne : rem ≠ [] := fun hr => hnz (Or.inl hr)
      have hdne : dco ≠ [] := getLast_some_ne_nil hdl
      have hd1 : 1 ≤ dco.length := List.length_pos.mpr hdne
      have hr1 : 1 ≤ rem.length := List.length_pos.mpr hrne
      have hle : dco.length ≤ rem.length := by omega
      obtain ⟨rlc, hrl⟩ : ∃ a, rem.getLast? = some a :=
        ⟨_, getLast_eq_getD rem hrne⟩
      rw [hrl]
      simp only
      have hq : (rem.length - 1) - (dco.length - 1) < q.length := by omega
      have hb : (rem.length - 1) - (dco.length - 1) + dco.length ≤ rem.length := by
        omega
      rw [if_pos hq, if_pos hb]
      have hlt := step_length_lt dco rem lc rlc hdl hlc hrl hle
      refine ih _ _ (by omega) ?_
      rw [List.length_set]
      omega

/-! ### C2: division invariant -/

lemma getD_mem_of_lt : ∀ (l : List F) (n : Nat), n < l.length → l.getD n 0 ∈ l := by
  intro l
  induction l with
  | nil => intro n hn; cases hn
  | cons c cs ih =>
    intro n hn
    cases n with
    | zero => exact List.mem_cons_self c cs
    | succ n =>
      rw [List.getD_cons_succ]
      exact List.mem_cons_of_mem c (ih n (by simpa using hn))

lemma coeffAt_zero_poly (k : Nat) : coeffAt (UniPoly.zero : UniPoly F) k = 0 := by
  cases k <;> rfl

lemma mulCoeff_zero_left (d : UniPoly F) (k : Nat) : mulCoeff UniPoly.zero d k = 0 := by
  unfold mulCoeff
  rw [Finset.sum_congr rfl fun i _ => by rw [coeffAt_zero_poly, zero_mul]]
  exact Finset.sum_const_zero

lemma coeff_ofL_mul (a b : UniPoly F) (k : Nat) :
    (ofL a.coeffs * ofL b.coeffs).coeff k = mulCoeff a b k := by
  rw [Polynomial.coeff_mul, Finset.Nat.sum_antidiagonal_eq_sum_range_succ_mk]
  unfold mulCoeff coeffAt
  exact Finset.sum_congr rfl fun i _ => by rw [ofL_coeff, ofL_coeff]

lemma ofL_eq_imp_coeffAt (p q d r : UniPoly F)
    (heq : ofL p.coeffs = ofL q.coeffs * ofL d.coeffs + ofL r.coeffs) (k : Nat) :
    coeffAt p k = mulCoeff q d k + coeffAt r k := by
  have h2 := congrArg (fun pol => Polynomial.coeff pol k) heq
  simp only [Polynomial.coeff_add] at h2
  rw [coeff_ofL_mul q d k, ofL_coeff, ofL_coeff] at h2
  exact h2

/-- C2: whenever `divide_with_q_and_r` with a non-zero divisor returns a
quotient/remainder pair, the dividend equals `quotient * divisor + remainder`
coefficient-wise (with the Cauchy product), and the remainder is the zero
polynomial or has degree strictly smaller than the divisor's. -/
theorem divide_with_q_and_r_spec (p d q r : UniPoly F) (hd : ¬ d.is_zero)
    (h : p.divide_with_q_and_r d = .ok (some (q, r))) :
    (∀ k, coeffAt p k = mulCoeff q d k + coeffAt r k) ∧
      (r.is_zero ∨ r.degree < d.degree) := by
  unfold UniPoly.divide_with_q_and_r at h
  by_cases hp : p.is_zero
  · rw [if_pos hp] at h
    injection h with h1
    injection h1 with h2
    injection h2 with h3 h4
    refine ⟨fun k => ?_, ?_⟩
    · rw [← h3, ← h4, mulCoeff_zero_left, coeffAt_zero_poly, add_zero]
      unfold coeffAt
      exact zeroList_getD p.coeffs hp k
    · rw [← h4]
      exact Or.inl (Or.inl rfl)
  · rw [if_neg hp, if_neg hd] at h
    by_cases hdeg : p.degree < d.degree
    · rw [if_pos hdeg] at h
      injection h with h1
      injection h1 with h2
      injection h2 with h3 h4
      refine ⟨fun k => ?_, ?_⟩
      · rw [← h3, ← h4, mulCoeff_zero_left, zero_add]
      · rw [← h4]
        exact Or.inr hdeg
    · rw [if_neg hdeg] at h
      have hdne : d.coeffs ≠ [] := fun hnil => hd (Or.inl hnil)
      have hlast := getLast_eq_getD d.coeffs hdne
      rw [hlast] at h
      simp only at h
      by_cases hlc : d.coeffs.getD (d.coeffs.length - 1) 0 = 0
      · rw [show finv (d.coeffs.getD (d.coeffs.length - 1) 0) = none from by
            rw [finv, if_pos hlc]] at h
        exact DivResult.noConfusion h
      · rw [show finv (d.coeffs.getD (d.coeffs.length - 1) 0)
              = some (d.coeffs.getD (d.coeffs.length - 1) 0)⁻¹ from by
            rw [finv, if_neg hlc]] at h
        simp only at h
        cases hloop : divLoop d.coeffs (d.coeffs.getD (d.coeffs.length - 1) 0)⁻¹
            (p.coeffs.length + 1)
            (List.replicate (p.degree - d.degree + 1) 0) p.coeffs with
        | panicked => rw [hloop] at h; exact DivResult.noConfusion h
        | outOfFuel => rw [hloop] at h; exact DivResult.noConfusion h
        | done q0 r0 =>
          rw [hloop] at h
          injection h with h1
          injection h1 with h2
          injection h2 with h3 h4
          have hinv := divLoop_invariant d.coeffs _ hlast hlc _ _ _ _ _ hloop
            (fun _ j _ => getD_replicate_zero _ j)
          have hrep : ofL (List.replicate (p.degree - d.degree + 1) (0 : F)) = 0 :=
            ofL_zeroList _ (Or.inr fun c hc => List.eq_of_mem_replicate hc)
          rw [hrep, zero_mul, zero_add] at hinv
          refine ⟨fun k => ?_, ?_⟩
          · refine ofL_eq_imp_coeffAt p q d r ?_ k
            rw [← h3, ← h4]
            exact hinv.1.symm
          · rw [← h4]
            exact hinv.2

theorem divide_with_q_and_r_spec_witness :
    ¬ (UniPoly.is_zero (⟨[1, 1]⟩ : UniPoly (ZMod 101))) ∧
      UniPoly.divide_with_q_and_r (⟨[5]⟩ : UniPoly (ZMod 101)) ⟨[1, 1]⟩
        = .ok (some (⟨[]⟩, ⟨[5]⟩)) ∧
      ((∀ k, coeffAt (⟨[5]⟩ : UniPoly (ZMod 101)) k
          = mulCoeff ⟨[]⟩ ⟨[1, 1]⟩ k + coeffAt ⟨[5]⟩ k) ∧
        (UniPoly.is_zero (⟨[5]⟩ : UniPoly (ZMod 101)) ∨
          UniPoly.degree (⟨[5]⟩ : UniPoly (ZMod 101)) < UniPoly.degree ⟨[1, 1]⟩)) :=
  ⟨by decide, by decide,
    divide_with_q_and_r_spec ⟨[5]⟩ ⟨[1, 1]⟩ ⟨[]⟩ ⟨[5]⟩ (by decide) (by decide)⟩

/-! ### C10: no panic for a unit leading coefficient -/

/-- C10: for every divisor whose last stored coefficient is a non-zero field
element and every dividend, `divide_with_q_and_r` runs to a normal return:
every `unwrap` and index access succeeds and the loop terminates within the
modelled fuel, so the outcome is `ok` (never a panic or fuel exhaustion). -/
theorem divide_no_panic (d : UniPoly F) (lc : F)
    (hl : d.coeffs.getLast? = some lc) (hlc : lc ≠ 0) (p : UniPoly F) :
    ∃ res, p.divide_with_q_and_r d = .ok res := by
  unfold UniPoly.divide_with_q_and_r
  by_cases hp : p.is_zero
  · exact ⟨_, by rw [if_pos hp]⟩
  · rw [if_neg hp]
    have hdne : d.coeffs ≠ [] := getLast_some_ne_nil hl
    have hlcd : lc = d.coeffs.getD (d.coeffs.length - 1) 0 := by
      have h2 := getLast_eq_getD d.coeffs hdne
      rw [hl] at h2
      exact Option.some.inj h2
    have hdz : ¬ d.is_zero := by
      intro hz
      rcases hz with hnil | hall
      · exact hdne hnil
      · have hmem : d.coeffs.getD (d.coeffs.length - 1) 0 ∈ d.coeffs :=
          getD_mem_of_lt d.coeffs _ (by
            have := List.length_pos.mpr hdne
            omega)
        exact hlc (hlcd ▸ hall _ hmem)
    rw [if_neg hdz]
    by_cases hdeg : p.degree < d.degree
    · exact ⟨_, by rw [if_pos hdeg]⟩
    · rw [if_neg hdeg, hl]
      simp only
      rw [show finv lc = some lc⁻¹ from by rw [finv, if_neg hlc]]
      simp only
      have hp1 : p.coeffs ≠ [] := fun hnil => hp (Or.inl hnil)
      have hd1 : 1 ≤ d.coeffs.length := List.length_pos.mpr hdne
      have hple : d.coeffs.length ≤ p.coeffs.length := by
        unfold UniPoly.degree at hdeg
        have := List.length_pos.mpr hp1
        omega
      have hbound : p.coeffs.length
          ≤ (List.replicate (p.degree - d.degree + 1) (0 : F)).length
              + d.coeffs.length - 1 := by
        rw [List.length_replicate]
        unfold UniPoly.degree
        omega
      obtain ⟨q', r', heq⟩ := divLoop_total d.coeffs lc hl hlc
        (p.coeffs.length + 1) (List.replicate (p.degree - d.degree + 1) 0)
        p.coeffs (by omega) hbound
      rw [heq]
      exact ⟨_, rfl⟩

theorem divide_no_panic_witness :
    (UniPoly.coeffs (⟨[1, 1]⟩ : UniPoly (ZMod 101))).getLast? = some 1 ∧
      (1 : ZMod 101) ≠ 0 ∧
      ∃ res, UniPoly.divide_with_q_and_r (⟨[2, 3]⟩ : UniPoly (ZMod 101)) ⟨[1, 1]⟩
        = .ok res :=
  ⟨by decide, by decide, divide_no_panic ⟨[1, 1]⟩ 1 (by decide) (by decide) ⟨[2, 3]⟩⟩
